import Mathlib

set_option linter.unusedVariables false

/-
Shallow embedding of the quality-tiered rasterization and page-combination
pipeline of the MultiModal chatbot repository.

The embedding covers:
  - the quality policy tables (`get_zoom_factor`, `get_pages_per_image` of
    `anthropic_ocr.py`; the integer-keyed `get_pages_per_image` of
    `testing/img_pdf_v2.py` and `testing/st_img_4o_pdf.py`; the alternative
    zoom table of `new_test/fix_rgba_filedata_error.py`);
  - a PIL-style raster image model (mode, dimensions, pixel function),
    enough to express the color normalization in `process_image`, the
    vertical composition in `combine_images_vertically`, and resizing;
  - the page-group partitioning of the three PDF conversion variants;
  - the document pipeline `pdf_to_images` with its page-failure handling
    and document-handle release, and the per-file batch loop of `main`.

External-library operations (Pillow, PyMuPDF) are modelled at the level the
code uses them: pixel-exact where the code depends on pixels (paste, alpha
compositing over white), abstract where it does not (resampling kernels).
Python floats are modelled as exact rationals, Python `int()` of a
nonnegative value as the floor.
-/

/-- The five-level quality enumeration used by the sliders of
`anthropic_ocr.py` (options Very Low, Low, Medium, High, Very High). -/
inductive Quality where
  | VeryLow
  | Low
  | Medium
  | High
  | VeryHigh
deriving DecidableEq, Repr

/-- Numeric rank of a quality level: a higher rank is a higher quality. -/
def qRank : Quality → Nat
  | .VeryLow => 0
  | .Low => 1
  | .Medium => 2
  | .High => 3
  | .VeryHigh => 4

/-- The `get_zoom_factor` quality map of `anthropic_ocr.py`
(1.0 / 0.7 / 0.45 / 0.3 / 0.2; float literals made exact rationals). -/
def get_zoom_factor : Quality → ℚ
  | .VeryHigh => 1
  | .High => 7/10
  | .Medium => 45/100
  | .Low => 3/10
  | .VeryLow => 2/10

/-- The `get_zoom_factor` quality map of `new_test/fix_rgba_filedata_error.py`
(1.0 / 0.5 / 0.33 / 0.25 / 1/6). -/
def get_zoom_factor_v2 : Quality → ℚ
  | .VeryHigh => 1
  | .High => 5/10
  | .Medium => 33/100
  | .Low => 25/100
  | .VeryLow => 1/6

/-- The `get_pages_per_image` quality map of `anthropic_ocr.py`
(1 / 2 / 4 / 6 / 8 pages per combined image). -/
def get_pages_per_image : Quality → Nat
  | .VeryHigh => 1
  | .High => 2
  | .Medium => 4
  | .Low => 6
  | .VeryLow => 8

/-- The integer-keyed `get_pages_per_image` of `testing/img_pdf_v2.py` and
`testing/st_img_4o_pdf.py`: `pages_map.get(quality_level, 1)` over the map
5↦1, 4↦2, 3↦4, 2↦6, 1↦8, defaulting to 1 on any other key. -/
def get_pages_per_image_int (quality_level : Int) : Nat :=
  if quality_level = 5 then 1
  else if quality_level = 4 then 2
  else if quality_level = 3 then 4
  else if quality_level = 2 then 6
  else if quality_level = 1 then 8
  else 1

/-- The quality-policy contract of the spec, stated over the embedded tables:
both maps are positive everywhere; zoom is monotone and pages-per-group
antitone in the quality rank; and the concrete numeric tables are
1.0/0.7/0.45/0.3/0.2 for zoom and 1/2/4/6/8 for pages per group. The
alternative zoom table of `new_test/fix_rgba_filedata_error.py` is also
positive and monotone. -/
def QualityPolicySpec : Prop :=
  (∀ q, 0 < get_zoom_factor q) ∧
  (∀ q, 0 < get_pages_per_image q) ∧
  (∀ q1 q2, qRank q1 ≤ qRank q2 → get_zoom_factor q1 ≤ get_zoom_factor q2) ∧
  (∀ q1 q2, qRank q1 ≤ qRank q2 →
    get_pages_per_image q2 ≤ get_pages_per_image q1) ∧
  (∀ q, 0 < get_zoom_factor_v2 q) ∧
  (∀ q1 q2, qRank q1 ≤ qRank q2 → get_zoom_factor_v2 q1 ≤ get_zoom_factor_v2 q2) ∧
  (get_zoom_factor .VeryHigh = 1 ∧ get_zoom_factor .High = 7/10 ∧
    get_zoom_factor .Medium = 45/100 ∧ get_zoom_factor .Low = 3/10 ∧
    get_zoom_factor .VeryLow = 1/5) ∧
  (get_pages_per_image .VeryHigh = 1 ∧ get_pages_per_image .High = 2 ∧
    get_pages_per_image .Medium = 4 ∧ get_pages_per_image .Low = 6 ∧
    get_pages_per_image .VeryLow = 8)

/-- Every enumerated quality level maps to at least one page per group. -/
theorem get_pages_per_image_pos (q : Quality) : 1 ≤ get_pages_per_image q := by
  cases q <;> decide

/-- A pixel with red, green, blue and alpha components (alpha 255 = opaque).
For modes without a stored alpha band the alpha component is the decoded
meaning of the pixel (255 for opaque modes). -/
structure Pixel where
  r : Nat
  g : Nat
  b : Nat
  a : Nat
deriving DecidableEq, Repr

/-- Opaque white, the background color the pipeline composites onto. -/
def whitePx : Pixel := ⟨255, 255, 255, 255⟩

/-- The PIL image modes the code distinguishes: `RGB`, `RGBA`, `LA`,
palette (`P`), luminance (`L`), and `CMYK` standing for any other
non-3-channel mode. -/
inductive Mode where
  | RGB
  | RGBA
  | LA
  | P
  | L
  | CMYK
deriving DecidableEq, Repr

/-- A decoded raster image in the PIL style: a mode, whether a
`transparency` key is present in `img.info` (only meaningful for `P`),
pixel dimensions and a pixel function. The pixel function stores the
decoded color meaning of each position (for `P` it is the palette-expanded
color, so `convert('RGBA')` leaves it unchanged). -/
structure PILImage where
  mode : Mode
  transparency : Bool
  width : Nat
  height : Nat
  px : Nat → Nat → Pixel

/-- `img.convert('RGBA')` on a palette image: the mode changes, the decoded
pixel meaning does not. -/
def convertToRGBA (img : PILImage) : PILImage :=
  { img with mode := Mode.RGBA }

/-- `img.convert('RGB')`: drop any alpha meaning, producing an opaque
3-channel image of the same size. -/
def convertToRGB (img : PILImage) : PILImage :=
  { img with
      mode := Mode.RGB
      transparency := false
      px := fun x y => ⟨(img.px x y).r, (img.px x y).g, (img.px x y).b, 255⟩ }

/-- `Image.new('RGB', (w, h), c)`: a fresh w×h canvas filled with `c`. -/
def newRGB (w h : Nat) (c : Pixel) : PILImage :=
  ⟨Mode.RGB, false, w, h, fun _ _ => c⟩

/-- `img.split()[-1]`: the last band of the image; for `RGBA` and `LA`
images that is the alpha band. -/
def lastBand (img : PILImage) : Nat → Nat → Nat :=
  fun x y => (img.px x y).a

/-- One channel of Pillow's paste-with-mask blend: source over background
weighted by the 8-bit mask value. -/
def blendChannel (bg src a : Nat) : Nat :=
  (src * a + bg * (255 - a)) / 255

/-- One pixel of Pillow's paste-with-mask blend onto an RGB background:
the result is opaque. -/
def blendPx (bg src : Pixel) (a : Nat) : Pixel :=
  ⟨blendChannel bg.r src.r a, blendChannel bg.g src.g a,
    blendChannel bg.b src.b a, 255⟩

/-- `background.paste(img, mask=m)` at the default position (0, 0):
inside `img`'s extent each background pixel is blended with the source
pixel under the mask; elsewhere the background is untouched. The result
keeps the background's mode and size. -/
def pasteWithMask (bg src : PILImage) (m : Nat → Nat → Nat) : PILImage :=
  { bg with px := fun x y =>
      if x < src.width ∧ y < src.height then blendPx (bg.px x y) (src.px x y) (m x y)
      else bg.px x y }

/-- The color-normalization prefix of `process_image` (`anthropic_ocr.py`
lines 66–79, identical in `new_test/fix_rgba_filedata_error.py`):

    if img.mode in ('RGBA', 'LA') or (img.mode == 'P' and 'transparency' in img.info):
        background = Image.new('RGB', img.size, (255, 255, 255))
        if img.mode == 'P':
            img = img.convert('RGBA')
        background.paste(img, mask=img.split()[-1])
        img = background
    elif img.mode != 'RGB':
        img = img.convert('RGB')
-/
def normalizeColor (img : PILImage) : PILImage :=
  if (img.mode = Mode.RGBA ∨ img.mode = Mode.LA) ∨
      (img.mode = Mode.P ∧ img.transparency = true) then
    let img2 := if img.mode = Mode.P then convertToRGBA img else img
    let background := newRGB img.width img.height whitePx
    pasteWithMask background img2 (lastBand img2)
  else if img.mode ≠ Mode.RGB then convertToRGB img
  else img

/-- The condition under which `process_image` takes the white-compositing
branch: the source carries an alpha or transparency channel. -/
def hasAlphaChannel (img : PILImage) : Prop :=
  (img.mode = Mode.RGBA ∨ img.mode = Mode.LA) ∨
    (img.mode = Mode.P ∧ img.transparency = true)

instance (img : PILImage) : Decidable (hasAlphaChannel img) := by
  unfold hasAlphaChannel; infer_instance

/-- Claim C4: for every quality level of the five-level enumeration, the
zoom factor and pages-per-group lookups are defined and positive, the zoom
factor is monotone in quality with table 1.0/0.7/0.45/0.3/0.2, and
pages-per-group is antitone in quality with table 1/2/4/6/8 (and the
alternative zoom table of `new_test/fix_rgba_filedata_error.py` is likewise
positive and monotone). -/
theorem quality_policy_tables : QualityPolicySpec := by
  refine ⟨?_, ?_, ?_, ?_, ?_, ?_, ?_, ?_⟩
  · intro q; cases q <;> norm_num [get_zoom_factor]
  · intro q; cases q <;> decide
  · intro q1 q2 h; cases q1 <;> cases q2 <;> revert h <;>
      norm_num [qRank, get_zoom_factor]
  · intro q1 q2 h; cases q1 <;> cases q2 <;> revert h <;> decide
  · intro q; cases q <;> norm_num [get_zoom_factor_v2]
  · intro q1 q2 h; cases q1 <;> cases q2 <;> revert h <;>
      norm_num [qRank, get_zoom_factor_v2]
  · norm_num [get_zoom_factor]
  · decide

/-- Claim C10: the integer-keyed pages-per-group lookup is total: any
quality level outside {1, 2, 3, 4, 5} yields the default of 1 page per
output image instead of an error. -/
theorem pages_per_image_int_default (q : Int)
    (h : ¬(q = 1 ∨ q = 2 ∨ q = 3 ∨ q = 4 ∨ q = 5)) :
    get_pages_per_image_int q = 1 := by
  push_neg at h
  obtain ⟨h1, h2, h3, h4, h5⟩ := h
  simp [get_pages_per_image_int, h1, h2, h3, h4, h5]

/-- Witness for C10: the unrecognized level 0 degrades to 1 page per image. -/
theorem pages_per_image_int_default_witness : get_pages_per_image_int 0 = 1 :=
  pages_per_image_int_default 0 (by decide)

/-- Claim C5's property of the color normalizer, as one predicate: the
result is an opaque 3-channel (`RGB`-mode) image of the same width and
height; when the source carries an alpha or transparency channel every
in-bounds pixel is the source pixel composited over opaque white with the
alpha value as blend mask; otherwise a non-3-channel source is converted
directly (no compositing) and a 3-channel source is untouched. -/
def NormalizeSpec (img : PILImage) : Prop :=
  (normalizeColor img).mode = Mode.RGB ∧
  (normalizeColor img).width = img.width ∧
  (normalizeColor img).height = img.height ∧
  (hasAlphaChannel img → ∀ x y, x < img.width → y < img.height →
    (normalizeColor img).px x y = blendPx whitePx (img.px x y) (img.px x y).a) ∧
  (¬hasAlphaChannel img → img.mode ≠ Mode.RGB →
    normalizeColor img = convertToRGB img) ∧
  (¬hasAlphaChannel img → img.mode = Mode.RGB → normalizeColor img = img)

/-- Claim C5: the color normalizer returns an opaque 3-channel image of the
input's dimensions; a source with an alpha or transparency channel (RGBA,
luminance-with-alpha, palette with transparency) is composited over an
opaque white canvas using its alpha channel as blend mask, any other
non-3-channel source is converted directly. -/
theorem normalize_color_spec (img : PILImage) : NormalizeSpec img := by
  unfold NormalizeSpec normalizeColor hasAlphaChannel
  by_cases hA : (img.mode = Mode.RGBA ∨ img.mode = Mode.LA) ∨
      (img.mode = Mode.P ∧ img.transparency = true)
  · simp only [hA, if_true]
    by_cases hP : img.mode = Mode.P <;>
        simp [hP, pasteWithMask, newRGB, convertToRGBA, lastBand] <;>
      exact fun x y hx hy hcon => absurd (hcon hx) (by omega)
  · simp only [hA, if_false]
    by_cases hR : img.mode = Mode.RGB
    · simp [hR]
    · simp [hR, convertToRGB]

/-- A sample RGBA image with a non-trivial alpha pattern. -/
def imgRGBA : PILImage :=
  ⟨Mode.RGBA, false, 2, 2, fun x y => ⟨40 * x, 60 * y, 80, 100 * x + 50 * y⟩⟩

/-- Witness for C5 at a concrete RGBA image. -/
theorem normalize_color_spec_witness : NormalizeSpec imgRGBA :=
  normalize_color_spec imgRGBA

/-- A sample image that is already opaque 3-channel RGB. -/
def imgRGB : PILImage :=
  ⟨Mode.RGB, false, 3, 2, fun x y => ⟨10 * x, 20 * y, 30, 255⟩⟩

/-- Claim C9: color normalization is idempotent on already-opaque
3-channel input: an `RGB`-mode image takes neither the white-compositing
branch nor the mode-conversion branch and is returned unchanged. -/
theorem normalize_color_idempotent (img : PILImage) (h : img.mode = Mode.RGB) :
    normalizeColor img = img ∧ ¬hasAlphaChannel img := by
  constructor
  · simp [normalizeColor, h]
  · simp [hasAlphaChannel, h]

/-- Witness for C9: the concrete RGB image is returned unchanged. -/
theorem normalize_color_idempotent_witness :
    normalizeColor imgRGB = imgRGB ∧ ¬hasAlphaChannel imgRGB :=
  normalize_color_idempotent imgRGB rfl

/-- Color normalization never changes the width. -/
theorem normalizeColor_width (img : PILImage) :
    (normalizeColor img).width = img.width := by
  simp only [normalizeColor]
  split_ifs <;> rfl

/-- Color normalization never changes the height. -/
theorem normalizeColor_height (img : PILImage) :
    (normalizeColor img).height = img.height := by
  simp only [normalizeColor]
  split_ifs <;> rfl

/-- Every zoom factor of the table is positive. -/
theorem get_zoom_factor_pos (q : Quality) : 0 < get_zoom_factor q := by
  cases q <;> norm_num [get_zoom_factor]

/-- Python `int(n * zoom)` for a natural `n` and nonnegative `zoom`:
truncation toward zero equals the floor. -/
def intScale (n : Nat) (zoom : ℚ) : Nat := (⌊(n : ℚ) * zoom⌋).toNat

/-- `img.resize((w, h), Image.Resampling.LANCZOS)`: the pixel dimensions
become exactly (w, h); the Lanczos kernel itself is modelled abstractly by
coordinate scaling, since no claim depends on resampled pixel values. -/
def resize (img : PILImage) (w h : Nat) : PILImage :=
  { img with
      width := w
      height := h
      px := fun x y => img.px (x * img.width / w) (y * img.height / h) }

/-- `process_image` of `anthropic_ocr.py` (lines 66–99): color-normalize;
at quality "Very High" encode the normalized image directly (no resize);
otherwise compute `new_width = int(width * zoom)`,
`new_height = int(height * zoom)` and resize before encoding. The JPEG
encode (quality 95) keeps pixel dimensions, so the returned image's
dimensions are those of the encoded payload. -/
def process_image (img : PILImage) (quality : Quality) : PILImage :=
  let norm := normalizeColor img
  if quality = Quality.VeryHigh then norm
  else
    resize norm (intScale norm.width (get_zoom_factor quality))
      (intScale norm.height (get_zoom_factor quality))

/-- Claim C8's property: at the maximum tier the image pipeline skips
resampling entirely — the output is the color-normalized input itself and
its dimensions equal the input's; at every lower tier both output
dimensions are the floor of the input dimension times `zoomFor(level)`. -/
def ProcessImageDims (img : PILImage) (quality : Quality) : Prop :=
  (quality = Quality.VeryHigh →
    process_image img quality = normalizeColor img ∧
    (process_image img quality).width = img.width ∧
    (process_image img quality).height = img.height) ∧
  (quality ≠ Quality.VeryHigh →
    ((process_image img quality).width : ℤ) =
      ⌊(img.width : ℚ) * get_zoom_factor quality⌋ ∧
    ((process_image img quality).height : ℤ) =
      ⌊(img.height : ℚ) * get_zoom_factor quality⌋)

/-- Claim C8: at "Very High" the standalone-image pipeline skips resampling
(output dimensions equal the color-normalized input's, which equal the
input's); at any lower tier both dimensions are scaled by the zoom factor
of the level. -/
theorem process_image_dims (img : PILImage) (quality : Quality) :
    ProcessImageDims img quality := by
  constructor
  · intro h
    subst h
    refine ⟨by simp [process_image], ?_, ?_⟩
    · simp [process_image, normalizeColor_width]
    · simp [process_image, normalizeColor_height]
  · intro h
    have hfl : ∀ n : Nat, (0 : ℤ) ≤ ⌊(n : ℚ) * get_zoom_factor quality⌋ :=
      fun n => Int.floor_nonneg.mpr
        (mul_nonneg (Nat.cast_nonneg n) (get_zoom_factor_pos quality).le)
    constructor
    · have : (process_image img quality).width =
          intScale (normalizeColor img).width (get_zoom_factor quality) := by
        simp [process_image, h, resize]
      rw [this, normalizeColor_width, intScale, Int.toNat_of_nonneg (hfl _)]
    · have : (process_image img quality).height =
          intScale (normalizeColor img).height (get_zoom_factor quality) := by
        simp [process_image, h, resize]
      rw [this, normalizeColor_height, intScale, Int.toNat_of_nonneg (hfl _)]

/-- Witness for C8 at a concrete image and tier. -/
theorem process_image_dims_witness : ProcessImageDims imgRGB Quality.Medium :=
  process_image_dims imgRGB Quality.Medium

/-- `combined.paste(img, (x, y))` without a mask: inside the pasted box the
source pixel replaces the canvas pixel; the canvas is untouched elsewhere
and keeps its mode and size. -/
def paste (canvas img : PILImage) (pos : Nat × Nat) : PILImage :=
  { canvas with px := fun x y =>
      if pos.1 ≤ x ∧ x < pos.1 + img.width ∧ pos.2 ≤ y ∧ y < pos.2 + img.height
      then img.px (x - pos.1) (y - pos.2)
      else canvas.px x y }

/-- The paste loop of `combine_images_vertically`: each image in order is
pasted at `((max_width - img.width) // 2, y_offset)` and `y_offset`
advances by the image's height. -/
def pasteLoop (canvas : PILImage) (max_width y_offset : Nat) :
    List PILImage → PILImage
  | [] => canvas
  | img :: rest =>
      pasteLoop (paste canvas img ((max_width - img.width) / 2, y_offset))
        max_width (y_offset + img.height) rest

/-- Python `max` over a list of naturals (the code only applies it to
nonempty lists, where the 0 seed is absorbed). -/
def pyMax (l : List Nat) : Nat := l.foldl Nat.max 0

/-- `combine_images_vertically` of `anthropic_ocr.py` (lines 44–64):
`None` on an empty list; otherwise a white RGB canvas of width
`max(img.width)` and height `sum(img.height)` with the images pasted
top-to-bottom, horizontally centered. -/
def combine_images_vertically (images : List PILImage) : Option PILImage :=
  match images with
  | [] => none
  | _ :: _ =>
    let total_height := (images.map PILImage.height).sum
    let max_width := pyMax (images.map PILImage.width)
    let combined := newRGB max_width total_height whitePx
    some (pasteLoop combined max_width 0 images)

/-- Sum of the heights of the first `i` images: the vertical offset at
which image `i` is pasted. -/
def heightsBefore (l : List PILImage) (i : Nat) : Nat :=
  ((l.take i).map PILImage.height).sum

/-- The paste loop does not change the canvas dimensions or mode. -/
theorem pasteLoop_shape (l : List PILImage) :
    ∀ c W y0, (pasteLoop c W y0 l).width = c.width ∧
      (pasteLoop c W y0 l).height = c.height ∧
      (pasteLoop c W y0 l).mode = c.mode := by
  induction l with
  | nil => intro c W y0; exact ⟨rfl, rfl, rfl⟩
  | cons hd tl ih =>
    intro c W y0
    simpa [pasteLoop, paste] using ih (paste c hd ((W - hd.width) / 2, y0)) W (y0 + hd.height)

/-- Rows strictly above the current offset are never touched by the loop. -/
theorem pasteLoop_px_below (l : List PILImage) :
    ∀ c W y0 x y, y < y0 → (pasteLoop c W y0 l).px x y = c.px x y := by
  induction l with
  | nil => intro c W y0 x y _; rfl
  | cons hd tl ih =>
    intro c W y0 x y hy
    rw [pasteLoop, ih _ W _ x y (by omega)]
    simp only [paste]
    rw [if_neg (by omega)]

/-- Characterization of one horizontal band of the pasted column: within
image `i`'s rows, a pixel is image `i`'s pixel when the column lies in its
centered extent and the original canvas pixel otherwise. -/
theorem pasteLoop_px_band (l : List PILImage) :
    ∀ c W y0 i (hi : i < l.length) dy x, dy < (l.get ⟨i, hi⟩).height →
      (pasteLoop c W y0 l).px x (y0 + heightsBefore l i + dy) =
        if (W - (l.get ⟨i, hi⟩).width) / 2 ≤ x ∧
            x < (W - (l.get ⟨i, hi⟩).width) / 2 + (l.get ⟨i, hi⟩).width
        then (l.get ⟨i, hi⟩).px (x - (W - (l.get ⟨i, hi⟩).width) / 2) dy
        else c.px x (y0 + heightsBefore l i + dy) := by
  induction l with
  | nil => intro c W y0 i hi; exact absurd hi (by simp)
  | cons hd tl ih =>
    intro c W y0 i hi dy x hdy
    cases i with
    | zero =>
      have hH : heightsBefore (hd :: tl) 0 = 0 := rfl
      rw [pasteLoop, pasteLoop_px_below tl _ W _ x _ (by simp at hdy; omega)]
      simp only [paste, hH]
      by_cases hx : (W - hd.width) / 2 ≤ x ∧ x < (W - hd.width) / 2 + hd.width
      · rw [if_pos (by simp at hdy ⊢; omega), if_pos (by simpa using hx)]
        simp
      · rw [if_neg (by simp at hx ⊢; omega), if_neg (by simpa using hx)]
    | succ j =>
      have hj : j < tl.length := by simpa using hi
      have hH : heightsBefore (hd :: tl) (j + 1) = hd.height + heightsBefore tl j := by
        simp [heightsBefore]
      have hget : (hd :: tl).get ⟨j + 1, hi⟩ = tl.get ⟨j, hj⟩ := rfl
      rw [pasteLoop, hget, hH]
      have hy : y0 + (hd.height + heightsBefore tl j) + dy =
          (y0 + hd.height) + heightsBefore tl j + dy := by omega
      rw [hy, ih _ W (y0 + hd.height) j hj dy x (by simpa [hget] using hdy)]
      by_cases hx : (W - (tl.get ⟨j, hj⟩).width) / 2 ≤ x ∧
          x < (W - (tl.get ⟨j, hj⟩).width) / 2 + (tl.get ⟨j, hj⟩).width
      · rw [if_pos hx, if_pos hx]
      · rw [if_neg hx, if_neg hx]
        simp only [paste]
        rw [if_neg (by omega)]

/-- The fold seed is below the fold of Python `max`. -/
theorem le_foldl_max (l : List Nat) : ∀ a, a ≤ l.foldl Nat.max a := by
  induction l with
  | nil => intro a; exact Nat.le_refl a
  | cons hd tl ih =>
    intro a
    exact le_trans (Nat.le_max_left a hd) (ih (Nat.max a hd))

/-- Every member is below the fold of Python `max`. -/
theorem mem_le_foldl_max (l : List Nat) : ∀ a, ∀ x ∈ l, x ≤ l.foldl Nat.max a := by
  induction l with
  | nil => intro a x hx; exact absurd hx (by simp)
  | cons hd tl ih =>
    intro a x hx
    rcases List.mem_cons.mp hx with h | h
    · subst h
      exact le_trans (Nat.le_max_right a x) (le_foldl_max tl (Nat.max a x))
    · exact ih (Nat.max a hd) x h

/-- The fold of Python `max` is a member of the list or the seed itself. -/
theorem foldl_max_mem (l : List Nat) : ∀ a, l.foldl Nat.max a ∈ l ∨ l.foldl Nat.max a = a := by
  induction l with
  | nil => intro a; right; rfl
  | cons hd tl ih =>
    intro a
    rcases ih (Nat.max a hd) with h | h
    · left; exact List.mem_cons_of_mem hd h
    · rcases Nat.le_total a hd with hle | hle
      · left
        have hm : Nat.max a hd = hd := Nat.max_eq_right hle
        rw [List.foldl_cons, h, hm]
        exact List.mem_cons_self hd tl
      · right
        have hm : Nat.max a hd = a := Nat.max_eq_left hle
        rw [List.foldl_cons, h, hm]

/-- On a nonempty list, Python `max` attains a member. -/
theorem pyMax_mem (l : List Nat) (h : l ≠ []) : pyMax l ∈ l := by
  rcases foldl_max_mem l 0 with hm | hm
  · exact hm
  · cases l with
    | nil => exact absurd rfl h
    | cons hd tl =>
      have h1 : hd ≤ pyMax (hd :: tl) := mem_le_foldl_max _ 0 hd (List.mem_cons_self hd tl)
      have h2 : pyMax (hd :: tl) = 0 := hm
      have : hd = pyMax (hd :: tl) := by omega
      rw [← this]
      exact List.mem_cons_self hd tl

/-- Claim C2's property of the composite builder: on a nonempty group the
result exists, is an RGB canvas whose height is exactly the sum of the
heights and whose width is exactly the maximum of the widths; each image
`i` appears intact at vertical offset `heightsBefore images i` and
horizontal offset `(width - image.width) // 2`; and within each band the
columns outside the pasted extent are the opaque white background. -/
def CombineSpec (images : List PILImage) : Prop :=
  ∃ c, combine_images_vertically images = some c ∧
    c.mode = Mode.RGB ∧
    c.height = (images.map PILImage.height).sum ∧
    (∀ img ∈ images, img.width ≤ c.width) ∧
    (∃ img ∈ images, img.width = c.width) ∧
    (∀ i (hi : i < images.length), ∀ dx dy,
      dx < (images.get ⟨i, hi⟩).width → dy < (images.get ⟨i, hi⟩).height →
      c.px ((c.width - (images.get ⟨i, hi⟩).width) / 2 + dx)
          (heightsBefore images i + dy) =
        (images.get ⟨i, hi⟩).px dx dy) ∧
    (∀ i (hi : i < images.length), ∀ x dy, dy < (images.get ⟨i, hi⟩).height →
      (x < (c.width - (images.get ⟨i, hi⟩).width) / 2 ∨
        (c.width - (images.get ⟨i, hi⟩).width) / 2 + (images.get ⟨i, hi⟩).width ≤ x) →
      c.px x (heightsBefore images i + dy) = whitePx)

/-- Claim C2: for every nonempty group, the composite builder returns one
image of width `max(widths)` and height `sum(heights)` on an opaque white
canvas, the inputs pasted top-to-bottom in order at vertical offset equal
to the running sum of prior heights and horizontal offset
`(max_width - width) // 2`. -/
theorem combine_images_spec (images : List PILImage) (hne : images ≠ []) :
    CombineSpec images := by
  cases images with
  | nil => exact absurd rfl hne
  | cons hd tl =>
    refine ⟨_, rfl, ?_, ?_, ?_, ?_, ?_, ?_⟩
    · exact (pasteLoop_shape _ _ _ _).2.2
    · rw [(pasteLoop_shape _ _ _ _).2.1]; rfl
    · intro img hmem
      rw [(pasteLoop_shape _ _ _ _).1]
      exact mem_le_foldl_max _ 0 img.width (List.mem_map_of_mem PILImage.width hmem)
    · have := pyMax_mem ((hd :: tl).map PILImage.width) (by simp)
      rcases List.mem_map.mp this with ⟨img, hmem, heq⟩
      exact ⟨img, hmem, by rw [(pasteLoop_shape _ _ _ _).1]; exact heq⟩
    · intro i hi dx dy hdx hdy
      rw [(pasteLoop_shape _ _ _ _).1,
        show (newRGB (pyMax ((hd :: tl).map PILImage.width))
            (((hd :: tl).map PILImage.height).sum) whitePx).width =
          pyMax ((hd :: tl).map PILImage.width) from rfl]
      have hband := pasteLoop_px_band (hd :: tl) (newRGB
          (pyMax ((hd :: tl).map PILImage.width))
          (((hd :: tl).map PILImage.height).sum) whitePx)
        (pyMax ((hd :: tl).map PILImage.width)) 0 i hi dy
        ((pyMax ((hd :: tl).map PILImage.width) - ((hd :: tl).get ⟨i, hi⟩).width) / 2 + dx)
        hdy
      rw [Nat.zero_add] at hband
      rw [hband, if_pos (by omega)]
      congr 1
      omega
    · intro i hi x dy hdy hx
      rw [(pasteLoop_shape _ _ _ _).1,
        show (newRGB (pyMax ((hd :: tl).map PILImage.width))
            (((hd :: tl).map PILImage.height).sum) whitePx).width =
          pyMax ((hd :: tl).map PILImage.width) from rfl] at hx
      have hband := pasteLoop_px_band (hd :: tl) (newRGB
          (pyMax ((hd :: tl).map PILImage.width))
          (((hd :: tl).map PILImage.height).sum) whitePx)
        (pyMax ((hd :: tl).map PILImage.width)) 0 i hi dy x hdy
      rw [Nat.zero_add] at hband
      rw [hband, if_neg (by omega)]
      rfl

/-- A second sample RGB image, narrower than `imgRGB`. -/
def imgRGB2 : PILImage :=
  ⟨Mode.RGB, false, 1, 2, fun x y => ⟨5 + x, 7 + y, 9, 255⟩⟩

/-- Witness for C2 at a concrete two-image group. -/
theorem combine_images_spec_witness : CombineSpec [imgRGB, imgRGB2] :=
  combine_images_spec [imgRGB, imgRGB2] (by simp)

/-- Python `range(i, stop, step)` for the indices the loops over page
groups visit; a zero step (never used by the code) yields []. -/
def pythonRange (stop step i : Nat) : List Nat :=
  if _h : 0 < step ∧ i < stop then i :: pythonRange stop step (i + step) else []
termination_by stop - i
decreasing_by omega

/-- `math.ceil(total_pages / pages_per_image)` of `pdf_to_images`
(`anthropic_ocr.py` line 111), exact for the page counts at hand. -/
def num_combined_images (total_pages pages_per_image : Nat) : Nat :=
  (total_pages + pages_per_image - 1) / pages_per_image

/-- The page groups of `pdf_to_images` (`anthropic_ocr.py` lines 113–124):
`start_page = group_idx * pages_per_image`,
`end_page = min(start_page + pages_per_image, total_pages)` for
`group_idx in range(num_combined_images)`. -/
def pdfGroups (total_pages pages_per_image : Nat) : List (Nat × Nat) :=
  (List.range (num_combined_images total_pages pages_per_image)).map
    (fun group_idx => (group_idx * pages_per_image,
      min (group_idx * pages_per_image + pages_per_image) total_pages))

/-- The page groups emitted by `convert_pdf_to_images` of
`testing/st_img_4o_pdf.py` (lines 52–58): iterate
`for i in range(0, total_pages, pages_per_image)` and process a group only
`if end_idx - i == pages_per_image` — only full sets of pages. -/
def stGroups (total_pages pages_per_image : Nat) : List (Nat × Nat) :=
  ((pythonRange total_pages pages_per_image 0).map
    (fun i => (i, min (i + pages_per_image) total_pages))).filter
    (fun g => decide (g.2 - g.1 = pages_per_image))

/-- The page groups of `convert_pdf_to_images` of `testing/img_pdf_v2.py`
(lines 44–50): same iteration, with `continue` only when
`current_pages < pages_per_image and i + pages_per_image < total_pages`. -/
def v2Groups (total_pages pages_per_image : Nat) : List (Nat × Nat) :=
  ((pythonRange total_pages pages_per_image 0).map
    (fun i => (i, min (i + pages_per_image) total_pages))).filter
    (fun g => !(decide (g.2 - g.1 < pages_per_image) &&
      decide (g.1 + pages_per_image < total_pages)))

/-- Closed form of `pythonRange`: starting at `i` with positive step, the
loop visits `i + step * k` for `k` below the ceiling of the remaining
distance over the step. -/
theorem pythonRange_eq (step : Nat) (hs : 0 < step) :
    ∀ n stop i, stop - i ≤ n →
      pythonRange stop step i =
        (List.range ((stop - i + (step - 1)) / step)).map (fun k => i + step * k) := by
  intro n
  induction n with
  | zero =>
    intro stop i hni
    rw [pythonRange, dif_neg (by omega),
      show (stop - i + (step - 1)) / step = 0 from Nat.div_eq_of_lt (by omega)]
    rfl
  | succ n ih =>
    intro stop i hni
    rw [pythonRange]
    by_cases hlt : i < stop
    · rw [dif_pos ⟨hs, hlt⟩, ih stop (i + step) (by omega)]
      have hC : (stop - i + (step - 1)) / step =
          (stop - (i + step) + (step - 1)) / step + 1 := by
        by_cases hc : i + step ≤ stop
        · rw [show stop - i + (step - 1) = (stop - (i + step) + (step - 1)) + step by omega,
            Nat.add_div_right _ hs]
        · rw [show stop - (i + step) = 0 by omega, Nat.zero_add,
            show (step - 1) / step = 0 from Nat.div_eq_of_lt (by omega)]
          exact Nat.div_eq_of_lt_le (by omega) (by omega)
      rw [hC, List.range_succ_eq_map, List.map_cons, List.map_map]
      have hfun : ((fun k => i + step * k) ∘ Nat.succ) =
          fun k => (i + step) + step * k := by
        funext k
        simp only [Function.comp_apply, Nat.mul_succ]
        ring
      rw [hfun]
      refine congrArg₂ List.cons (by simp) rfl
    · rw [dif_neg (by omega),
        show stop - i = 0 by omega, Nat.zero_add,
        show (step - 1) / step = 0 from Nat.div_eq_of_lt (by omega)]
      rfl

/-- `range(0, stop, step)` visits the multiples of the step below the
ceiling of `stop / step`. -/
theorem pythonRange_eq_range (stop step : Nat) (hs : 0 < step) :
    pythonRange stop step 0 =
      (List.range ((stop + step - 1) / step)).map (fun k => step * k) := by
  rw [pythonRange_eq step hs stop stop 0 (by omega)]
  rw [show stop - 0 + (step - 1) = stop + step - 1 by omega]
  simp

/-- A group index below the ceiling count starts strictly inside the
document. -/
theorem mul_lt_total_of_lt_num (total p k : Nat) (hp : 0 < p)
    (hk : k < num_combined_images total p) : k * p < total := by
  have h1 : k + 1 ≤ (total + p - 1) / p := hk
  have h2 : (k + 1) * p ≤ total + p - 1 := (Nat.le_div_iff_mul_le hp).mp h1
  rw [Nat.succ_mul] at h2
  generalize k * p = m at h2 ⊢
  omega

/-- Every group but the last ends inside the document, hence is full. -/
theorem full_group_of_lt_num (total p k : Nat) (hp : 0 < p)
    (hk : k + 1 < num_combined_images total p) : k * p + p ≤ total := by
  have h1 : k + 2 ≤ (total + p - 1) / p := hk
  have h2 : (k + 2) * p ≤ total + p - 1 := (Nat.le_div_iff_mul_le hp).mp h1
  rw [Nat.add_mul] at h2
  generalize k * p = m at h2 ⊢
  omega

/-- Every page index falls under a group index below the ceiling count. -/
theorem div_lt_num_of_lt_total (total p q : Nat) (hp : 0 < p) (hq : q < total) :
    q / p < num_combined_images total p := by
  have h1 : num_combined_images total p = (total - 1) / p + 1 := by
    unfold num_combined_images
    rw [show total + p - 1 = (total - 1) + p by omega, Nat.add_div_right _ hp]
  rw [h1]
  have h2 : q / p ≤ (total - 1) / p := Nat.div_le_div_right (by omega)
  omega

/-- A page index lies in the span of its own group. -/
theorem div_group_bounds (p q : Nat) (hp : 0 < p) :
    p * (q / p) ≤ q ∧ q < p * (q / p) + p := by
  have h1 := Nat.div_add_mod q p
  have h2 : q % p < p := Nat.mod_lt q hp
  generalize q / p = d at *
  generalize q % p = r at *
  generalize p * d = m at *
  omega

/-- A page index lies in the span of no other group. -/
theorem div_unique (p q k : Nat) (h1 : k * p ≤ q) (h2 : q < k * p + p) :
    q / p = k :=
  Nat.div_eq_of_lt_le h1 (by rw [Nat.succ_mul]; exact h2)

/-- The entry of the main pipeline's group list at a valid index. -/
theorem pdfGroups_getD (total p k : Nat) (hk : k < num_combined_images total p) :
    (pdfGroups total p).getD k (0, 0) = (k * p, min (k * p + p) total) := by
  unfold pdfGroups
  rw [List.getD_eq_getElem?_getD, List.getElem?_map, List.getElem?_range hk]
  rfl

/-- The main pipeline's group list has exactly the ceiling count of groups. -/
theorem pdfGroups_length (total p : Nat) :
    (pdfGroups total p).length = num_combined_images total p := by
  simp [pdfGroups]

/-- Claim C1's partitioning property of a group list `gs` for a document of
`total` pages at `p` pages per group: exactly `ceil(total/p)` groups; group
`k` spans `[k*p, min((k+1)*p, total))`; consecutive groups are contiguous;
every page lies in exactly one group (coverage and non-overlap); every
group but the last has exactly `p` pages; and every group — the remainder
group included — is nonempty (never silently dropped). -/
def GroupSpec (total p : Nat) (gs : List (Nat × Nat)) : Prop :=
  gs.length = num_combined_images total p ∧
  (∀ k, k < gs.length → gs.getD k (0, 0) = (k * p, min (k * p + p) total)) ∧
  (∀ k, k + 1 < gs.length → (gs.getD (k + 1) (0, 0)).1 = (gs.getD k (0, 0)).2) ∧
  (∀ q, q < total → ∃ k, k < gs.length ∧ (gs.getD k (0, 0)).1 ≤ q ∧
    q < (gs.getD k (0, 0)).2 ∧
    ∀ k2, k2 < gs.length → (gs.getD k2 (0, 0)).1 ≤ q →
      q < (gs.getD k2 (0, 0)).2 → k2 = k) ∧
  (∀ k, k + 1 < gs.length →
    (gs.getD k (0, 0)).2 - (gs.getD k (0, 0)).1 = p) ∧
  (∀ k, k < gs.length → (gs.getD k (0, 0)).1 < (gs.getD k (0, 0)).2)

/-- The main pipeline's page grouping satisfies the partitioning property. -/
theorem pdfGroups_spec (total p : Nat) (ht : 1 ≤ total) (hp : 1 ≤ p) :
    GroupSpec total p (pdfGroups total p) := by
  have hL := pdfGroups_length total p
  refine ⟨hL, ?_, ?_, ?_, ?_, ?_⟩
  · intro k hk
    exact pdfGroups_getD total p k (hL ▸ hk)
  · intro k hk
    rw [hL] at hk
    rw [pdfGroups_getD total p (k + 1) hk,
      pdfGroups_getD total p k (by omega)]
    have hfull : k * p + p ≤ total := full_group_of_lt_num total p k (by omega) hk
    rw [show min (k * p + p) total = k * p + p from Nat.min_eq_left hfull]
    simp [Nat.succ_mul]
  · intro q hq
    have hklt : q / p < num_combined_images total p :=
      div_lt_num_of_lt_total total p q (by omega) hq
    obtain ⟨hlo, hhi⟩ := div_group_bounds p q (by omega)
    refine ⟨q / p, hL ▸ hklt, ?_, ?_, ?_⟩
    · rw [pdfGroups_getD total p _ hklt]
      rw [Nat.mul_comm]
      exact hlo
    · rw [pdfGroups_getD total p _ hklt]
      have : q < q / p * p + p := by rw [Nat.mul_comm]; exact hhi
      exact lt_min this hq
    · intro k2 hk2 hk2lo hk2hi
      rw [hL] at hk2
      rw [pdfGroups_getD total p k2 hk2] at hk2lo hk2hi
      have hk2hi2 : q < k2 * p + p := lt_of_lt_of_le hk2hi (Nat.min_le_left _ _)
      exact (div_unique p q k2 hk2lo hk2hi2).symm
  · intro k hk
    rw [hL] at hk
    rw [pdfGroups_getD total p k (by omega)]
    have hfull : k * p + p ≤ total := full_group_of_lt_num total p k (by omega) hk
    rw [Nat.min_eq_left hfull]
    omega
  · intro k hk
    rw [hL] at hk
    rw [pdfGroups_getD total p k hk]
    have hlt : k * p < total := mul_lt_total_of_lt_num total p k (by omega) hk
    exact lt_min (by omega) hlt

/-- The skip condition of `testing/img_pdf_v2.py` is dead code: a group is
short only when it is the last one, so no group is ever skipped and the
grouping coincides with the main pipeline's. -/
theorem v2Groups_eq_pdfGroups (total p : Nat) (hp : 0 < p) :
    v2Groups total p = pdfGroups total p := by
  unfold v2Groups pdfGroups
  rw [pythonRange_eq_range total p hp, List.map_map]
  rw [List.filter_eq_self.mpr ?_]
  · have hfun : ((fun i => (i, min (i + p) total)) ∘ fun k => p * k) =
        fun group_idx => (group_idx * p, min (group_idx * p + p) total) := by
      funext k
      simp [Function.comp, Nat.mul_comm]
    rw [hfun]
    rfl
  · intro g hg
    rcases List.mem_map.mp hg with ⟨k, hk, hgk⟩
    subst hgk
    simp only [Function.comp_apply, Bool.not_eq_true', Bool.and_eq_false_iff,
      decide_eq_false_iff_not, Nat.not_lt]
    rcases Nat.le_total (p * k + p) total with hc | hc
    · left
      rw [Nat.min_eq_left hc]
      omega
    · right
      exact hc

/-- The grouping of `testing/st_img_4o_pdf.py` keeps exactly the full
groups: the first `total / p` (floor) chunks of `p` pages each. -/
theorem stGroups_eq_full (total p : Nat) (hp : 0 < p) :
    stGroups total p =
      (List.range (total / p)).map (fun k => (k * p, k * p + p)) := by
  unfold stGroups
  rw [pythonRange_eq_range total p hp, List.map_map, List.filter_map]
  have hpred : ∀ k ∈ List.range ((total + p - 1) / p),
      ((fun g : Nat × Nat => decide (g.2 - g.1 = p)) ∘
        ((fun i => (i, min (i + p) total)) ∘ fun k => p * k)) k =
      decide (k < total / p) := by
    intro k hk
    simp only [Function.comp_apply]
    rw [decide_eq_decide]
    constructor
    · intro hfull
      have hle : p * k + p ≤ total := by
        rcases Nat.le_total (p * k + p) total with hc | hc
        · exact hc
        · rw [Nat.min_eq_right hc] at hfull
          omega
      have : k + 1 ≤ total / p := by
        rw [Nat.le_div_iff_mul_le hp, Nat.succ_mul, Nat.mul_comm]
        omega
      omega
    · intro hklt
      have h2 : (k + 1) * p ≤ total := (Nat.le_div_iff_mul_le hp).mp hklt
      rw [Nat.succ_mul, Nat.mul_comm] at h2
      rw [Nat.min_eq_left (by omega)]
      omega
  rw [List.filter_congr hpred]
  have hrange : (List.range ((total + p - 1) / p)).filter
      (fun k => decide (k < total / p)) = List.range (total / p) := by
    have hle : total / p ≤ (total + p - 1) / p :=
      Nat.div_le_div_right (by omega)
    have hgen : ∀ n m : Nat, m ≤ n → (List.range n).filter
        (fun k => decide (k < m)) = List.range m := by
      intro n
      induction n with
      | zero => intro m hm; rw [show m = 0 by omega]; rfl
      | succ n ih =>
        intro m hm
        rw [List.range_succ, List.filter_append]
        by_cases hc : m ≤ n
        · rw [ih m hc]
          have : ¬ n < m := by omega
          simp [this]
        · have hm1 : m = n + 1 := by omega
          subst hm1
          have hall : List.filter (fun k => decide (k < n + 1)) (List.range n) =
              List.range n := by
            refine List.filter_eq_self.mpr ?_
            intro a ha
            have := List.mem_range.mp ha
            simp
            omega
          rw [hall, show List.filter (fun k => decide (k < n + 1)) [n] = [n] by simp,
            ← List.range_succ]
    exact hgen _ _ hle
  rw [hrange]
  refine List.map_congr_left ?_
  intro k hk
  have hk2 : (k + 1) * p ≤ total := (Nat.le_div_iff_mul_le hp).mp (List.mem_range.mp hk)
  rw [Nat.succ_mul] at hk2
  simp only [Function.comp_apply]
  rw [Nat.mul_comm p k, Nat.min_eq_left hk2]

/-- Claim C1 (amended): for any `total ≥ 1` and `p ≥ 1` the main pipeline
(`pdf_to_images` of `anthropic_ocr.py`) produces exactly `ceil(total/p)`
groups, group `k` spanning `[k*p, min((k+1)*p, total))`, contiguous,
non-overlapping, covering `[0, total)` exhaustively, only the last group
possibly short and the remainder group always emitted; the grouping of
`testing/img_pdf_v2.py` coincides with it (its skip branch is dead code);
but the grouping of `testing/st_img_4o_pdf.py` emits only the
`floor(total/p)` full groups, silently dropping a short remainder group. -/
theorem pdf_grouping (total p : Nat) (ht : 1 ≤ total) (hp : 1 ≤ p) :
    GroupSpec total p (pdfGroups total p) ∧
    v2Groups total p = pdfGroups total p ∧
    stGroups total p =
      (List.range (total / p)).map (fun k => (k * p, k * p + p)) :=
  ⟨pdfGroups_spec total p ht hp, v2Groups_eq_pdfGroups total p hp,
    stGroups_eq_full total p hp⟩

/-- Claim C1 counterexample: for a 3-page document at 2 pages per group,
the grouping of `convert_pdf_to_images` in `testing/st_img_4o_pdf.py`
yields only the single full group `[0, 2)` instead of `ceil(3/2) = 2`
groups: the remainder group holding page 2 is silently dropped, so the
claim's "remainder group is always emitted" fails on this variant. -/
theorem st_grouping_drops_remainder :
    stGroups 3 2 = [(0, 2)] ∧ num_combined_images 3 2 = 2 ∧
      (stGroups 3 2).length ≠ num_combined_images 3 2 := by
  have h := stGroups_eq_full 3 2 (by omega)
  refine ⟨?_, rfl, ?_⟩
  · rw [h]; rfl
  · rw [h]; decide

/-- Witness for C1's amended statement at the spec's own scenario:
a 10-page document at 4 pages per group. -/
theorem pdf_grouping_witness :
    GroupSpec 10 4 (pdfGroups 10 4) ∧
    v2Groups 10 4 = pdfGroups 10 4 ∧
    stGroups 10 4 =
      (List.range (10 / 4)).map (fun k => (k * 4, k * 4 + 4)) :=
  pdf_grouping 10 4 (by omega) (by omega)

/-- The caption built for one page group (`anthropic_ocr.py` lines 139–145):
`page_range = f"Pages {start_page+1}-{end_page}"`, replaced by
`f"Page {start_page+1}"` when the group is a single page, prefixed by the
document name. -/
def groupCaption (name : String) (start_page end_page : Nat) : String :=
  let page_range :=
    if end_page = start_page + 1 then "Page " ++ Nat.repr (start_page + 1)
    else "Pages " ++ Nat.repr (start_page + 1) ++ "-" ++ Nat.repr end_page
  name ++ " - " ++ page_range

/-- The inner loop of `pdf_to_images` over one group's page range
(`for page_num in range(start_page, end_page)`): collect the rendered
pages. A document's page is `some` its rendered raster image, or `none`
when `get_pixmap`/decoding raises; a `none` propagates as the exception. -/
def renderPages (pages : List (Option PILImage)) :
    List Nat → Except String (List PILImage)
  | [] => Except.ok []
  | i :: rest =>
    match pages.getD i none with
    | none => Except.error "page failed to rasterize"
    | some img =>
      match renderPages pages rest with
      | Except.ok tl => Except.ok (img :: tl)
      | Except.error e => Except.error e

/-- The loop of `pdf_to_images` over its page groups: render the group's
pages, combine them vertically, JPEG-encode (dimension-preserving) and
append the payload and its caption; any exception aborts the whole loop,
discarding the partially built lists. -/
def convertGroups (name : String) (pages : List (Option PILImage)) :
    List (Nat × Nat) → Except String (List PILImage × List String)
  | [] => Except.ok ([], [])
  | g :: rest =>
    match renderPages pages (List.range' g.1 (g.2 - g.1)) with
    | Except.error e => Except.error e
    | Except.ok page_images =>
      match combine_images_vertically page_images with
      | none => Except.error "empty group"
      | some combined =>
        match convertGroups name pages rest with
        | Except.error e => Except.error e
        | Except.ok (imgs, caps) =>
          Except.ok (combined :: imgs, groupCaption name g.1 g.2 :: caps)

/-- `pdf_to_images` of `anthropic_ocr.py` (lines 101–153) with an explicit
document-handle trace. On success the group loop completes, then
`pdf_document.close()` runs (flag `true`) and the payloads and captions
are returned; on any exception control jumps to the `except` branch, which
reports the error and returns `([], [])` — the `close()` call at the end
of the `try` block is never reached (flag `false`). -/
def pdf_to_images_run (name : String) (pages : List (Option PILImage))
    (pdf_quality : Quality) : (List PILImage × List String) × Bool :=
  match convertGroups name pages
      (pdfGroups pages.length (get_pages_per_image pdf_quality)) with
  | Except.ok r => (r, true)
  | Except.error _ => ((([] : List PILImage), ([] : List String)), false)

/-- The pair of lists `pdf_to_images` returns to its caller. -/
def pdf_to_images (name : String) (pages : List (Option PILImage))
    (pdf_quality : Quality) : List PILImage × List String :=
  (pdf_to_images_run name pages pdf_quality).1

/-- The per-file upload loop of `main` (`anthropic_ocr.py` lines 276–290):
each document is processed in order and its payloads and captions are
appended to the session lists; `pdf_to_images` reports its own failures
and returns empty lists, so one document's failure does not stop the
batch. -/
def processBatch (files : List (String × List (Option PILImage)))
    (pdf_quality : Quality) : List PILImage × List String :=
  files.foldl (fun acc f =>
    (acc.1 ++ (pdf_to_images f.1 f.2 pdf_quality).1,
      acc.2 ++ (pdf_to_images f.1 f.2 pdf_quality).2)) ([], [])

/-- Concatenation of per-document results, in document order. -/
def combineResults (rs : List (List PILImage × List String)) :
    List PILImage × List String :=
  rs.foldr (fun r acc => (r.1 ++ acc.1, r.2 ++ acc.2)) ([], [])

/-- Rendering succeeds on indices whose pages all rasterize. -/
theorem renderPages_ok_of_all (pages : List (Option PILImage)) :
    ∀ idxs : List Nat, (∀ i ∈ idxs, pages.getD i none ≠ none) →
      ∃ l, renderPages pages idxs = Except.ok l ∧ l.length = idxs.length := by
  intro idxs
  induction idxs with
  | nil => intro _; exact ⟨[], rfl, rfl⟩
  | cons i rest ih =>
    intro h
    obtain ⟨tl, htl, hlen⟩ := ih (fun j hj => h j (List.mem_cons_of_mem i hj))
    have hi := h i (List.mem_cons_self i rest)
    cases hp : pages.getD i none with
    | none => exact absurd hp hi
    | some img =>
      refine ⟨img :: tl, ?_, by simp [hlen]⟩
      rw [renderPages, hp, htl]

/-- If rendering succeeded then every requested page rasterized. -/
theorem renderPages_all_of_ok (pages : List (Option PILImage)) :
    ∀ idxs l, renderPages pages idxs = Except.ok l →
      ∀ i ∈ idxs, pages.getD i none ≠ none := by
  intro idxs
  induction idxs with
  | nil => intro l _ i hi; exact absurd hi (by simp)
  | cons j rest ih =>
    intro l hok i hi
    rw [renderPages] at hok
    cases hp : pages.getD j none with
    | none => rw [hp] at hok; exact absurd hok (by simp)
    | some img =>
      rw [hp] at hok
      rcases List.mem_cons.mp hi with hij | hirest
      · subst hij
        rw [hp]
        simp
      · cases hr : renderPages pages rest with
        | error e => rw [hr] at hok; exact absurd hok (by simp)
        | ok tl => exact ih tl hr i hirest

/-- Variant of `div_group_bounds` with the multiplication oriented as the
group list writes it. -/
theorem div_group_bounds2 (p q : Nat) (hp : 0 < p) :
    q / p * p ≤ q ∧ q < q / p * p + p := by
  obtain ⟨h1, h2⟩ := div_group_bounds p q hp
  rw [Nat.mul_comm] at h1 h2
  exact ⟨h1, h2⟩

/-- Every group of the main pipeline is a nonempty span inside the
document. -/
theorem pdfGroups_mem_span (total p : Nat) (hp : 0 < p) :
    ∀ g ∈ pdfGroups total p, g.1 < g.2 ∧ g.2 ≤ total := by
  intro g hg
  rcases List.mem_map.mp hg with ⟨k, hk, hgk⟩
  subst hgk
  have hklt := List.mem_range.mp hk
  exact ⟨lt_min (by omega) (mul_lt_total_of_lt_num total p k hp hklt),
    Nat.min_le_right _ _⟩

/-- Every page index of the document lies in some group of the main
pipeline. -/
theorem pdfGroups_covers (total p q : Nat) (hp : 0 < p) (hq : q < total) :
    ∃ g ∈ pdfGroups total p, g.1 ≤ q ∧ q < g.2 := by
  obtain ⟨hlo, hhi⟩ := div_group_bounds2 p q hp
  refine ⟨(q / p * p, min (q / p * p + p) total), ?_, hlo, lt_min hhi hq⟩
  exact List.mem_map.mpr ⟨q / p,
    List.mem_range.mpr (div_lt_num_of_lt_total total p q hp hq), rfl⟩

/-- If the group loop succeeded, every page of every group rasterized. -/
theorem convertGroups_all_of_ok (name : String) (pages : List (Option PILImage)) :
    ∀ gs r, convertGroups name pages gs = Except.ok r →
      ∀ g ∈ gs, ∀ i, g.1 ≤ i → i < g.2 → pages.getD i none ≠ none := by
  intro gs
  induction gs with
  | nil => intro r _ g hg; exact absurd hg (by simp)
  | cons g0 rest ih =>
    intro r hok g hg i hi1 hi2
    rw [convertGroups] at hok
    split at hok
    · simp at hok
    · rename_i page_images hrender
      split at hok
      · simp at hok
      · rename_i combined hcomb
        split at hok
        · simp at hok
        · rename_i imgs caps hrest
          rcases List.mem_cons.mp hg with hgg | hgrest
          · subst hgg
            exact renderPages_all_of_ok pages _ _ hrender i
              (List.mem_range'_1.mpr ⟨hi1, by omega⟩)
          · exact ih _ hrest g hgrest i hi1 hi2

/-- When every page of every group rasterizes and no group is empty, the
group loop succeeds, producing one payload and one caption per group in
group order. -/
theorem convertGroups_ok_of_all (name : String) (pages : List (Option PILImage)) :
    ∀ gs : List (Nat × Nat),
      (∀ g ∈ gs, g.1 < g.2 ∧ ∀ i, g.1 ≤ i → i < g.2 → pages.getD i none ≠ none) →
      ∃ imgs, convertGroups name pages gs =
        Except.ok (imgs, gs.map (fun g => groupCaption name g.1 g.2)) ∧
        imgs.length = gs.length := by
  intro gs
  induction gs with
  | nil => intro _; exact ⟨[], rfl, rfl⟩
  | cons g0 rest ih =>
    intro h
    obtain ⟨hg0span, hg0pages⟩ := h g0 (List.mem_cons_self g0 rest)
    obtain ⟨l, hl, hllen⟩ := renderPages_ok_of_all pages
      (List.range' g0.1 (g0.2 - g0.1)) (fun i hi => by
        obtain ⟨hi1, hi2⟩ := List.mem_range'_1.mp hi
        exact hg0pages i hi1 (by omega))
    obtain ⟨imgs, himgs, hilen⟩ := ih (fun g hg => h g (List.mem_cons_of_mem g0 hg))
    rw [List.length_range'] at hllen
    cases l with
    | nil =>
      exfalso
      simp at hllen
      omega
    | cons a as =>
      cases hcomb : combine_images_vertically (a :: as) with
      | none => exact absurd hcomb (by simp [combine_images_vertically])
      | some combined =>
        refine ⟨combined :: imgs, ?_, by simp [hilen]⟩
        simp only [convertGroups, hl, hcomb, himgs, List.map_cons]

/-- A document with a failing page aborts: the `except` branch returns
empty lists and the handle-close flag stays false. -/
theorem pdf_to_images_fail_run (name : String) (pages : List (Option PILImage))
    (pdf_quality : Quality)
    (hfail : ∃ i, i < pages.length ∧ pages.getD i none = none) :
    pdf_to_images_run name pages pdf_quality = (([], []), false) := by
  obtain ⟨i, hi, hnone⟩ := hfail
  have hp : 0 < get_pages_per_image pdf_quality := get_pages_per_image_pos _
  unfold pdf_to_images_run
  cases hc : convertGroups name pages
      (pdfGroups pages.length (get_pages_per_image pdf_quality)) with
  | ok r =>
    exfalso
    obtain ⟨g, hgmem, hg1, hg2⟩ := pdfGroups_covers pages.length _ i hp hi
    exact convertGroups_all_of_ok name pages _ r hc g hgmem i hg1 hg2 hnone
  | error e => rfl

/-- A document whose pages all rasterize converts to completion: the loop
finishes, the handle is closed, and one caption per group is emitted. -/
theorem pdf_to_images_ok_run (name : String) (pages : List (Option PILImage))
    (pdf_quality : Quality)
    (hok : ∀ i, i < pages.length → pages.getD i none ≠ none) :
    ∃ imgs, pdf_to_images_run name pages pdf_quality =
      ((imgs, (pdfGroups pages.length (get_pages_per_image pdf_quality)).map
        (fun g => groupCaption name g.1 g.2)), true) ∧
      imgs.length =
        num_combined_images pages.length (get_pages_per_image pdf_quality) := by
  have hp : 0 < get_pages_per_image pdf_quality := get_pages_per_image_pos _
  obtain ⟨imgs, himgs, hlen⟩ := convertGroups_ok_of_all name pages
    (pdfGroups pages.length (get_pages_per_image pdf_quality)) (fun g hg => by
      obtain ⟨h1, h2⟩ := pdfGroups_mem_span pages.length _ hp g hg
      exact ⟨h1, fun i hi1 hi2 => hok i (by omega)⟩)
  refine ⟨imgs, ?_, by rw [hlen, pdfGroups_length]⟩
  unfold pdf_to_images_run
  rw [himgs]

/-- Folding the batch loop from any accumulator appends the batch result. -/
theorem processBatch_acc (pdf_quality : Quality)
    (files : List (String × List (Option PILImage))) :
    ∀ acc : List PILImage × List String,
      files.foldl (fun acc f =>
        (acc.1 ++ (pdf_to_images f.1 f.2 pdf_quality).1,
          acc.2 ++ (pdf_to_images f.1 f.2 pdf_quality).2)) acc =
      (acc.1 ++ (processBatch files pdf_quality).1,
        acc.2 ++ (processBatch files pdf_quality).2) := by
  induction files with
  | nil => intro acc; simp [processBatch]
  | cons f fs ih =>
    intro acc
    simp only [processBatch, List.foldl_cons]
    rw [ih, ih]
    simp [List.append_assoc]

/-- The batch loop distributes over list append. -/
theorem processBatch_append (pdf_quality : Quality)
    (l1 l2 : List (String × List (Option PILImage))) :
    processBatch (l1 ++ l2) pdf_quality =
      ((processBatch l1 pdf_quality).1 ++ (processBatch l2 pdf_quality).1,
        (processBatch l1 pdf_quality).2 ++ (processBatch l2 pdf_quality).2) := by
  conv_lhs => unfold processBatch
  rw [List.foldl_append, processBatch_acc]
  rfl

/-- The batch result is the in-order concatenation of each document's
standalone result. -/
theorem processBatch_eq_combine (pdf_quality : Quality)
    (files : List (String × List (Option PILImage))) :
    processBatch files pdf_quality =
      combineResults (files.map (fun f => pdf_to_images f.1 f.2 pdf_quality)) := by
  induction files with
  | nil => rfl
  | cons f fs ih =>
    have hL : processBatch (f :: fs) pdf_quality =
        ((pdf_to_images f.1 f.2 pdf_quality).1 ++ (processBatch fs pdf_quality).1,
          (pdf_to_images f.1 f.2 pdf_quality).2 ++ (processBatch fs pdf_quality).2) := by
      conv_lhs => unfold processBatch
      rw [List.foldl_cons, processBatch_acc]
      simp
    rw [hL, ih]
    rfl

/-- Claim C3's property at one failing document inside a batch: the
failing document yields zero payloads and zero captions; removing it from
the batch leaves the batch output unchanged; and the batch output is the
in-order concatenation of every remaining document's standalone result
(per-document isolation, each processed to completion). -/
def FailureIsolationSpec (pdf_quality : Quality)
    (fs1 fs2 : List (String × List (Option PILImage)))
    (name : String) (pages : List (Option PILImage)) : Prop :=
  pdf_to_images name pages pdf_quality = ([], []) ∧
  processBatch (fs1 ++ (name, pages) :: fs2) pdf_quality =
    processBatch (fs1 ++ fs2) pdf_quality ∧
  processBatch (fs1 ++ fs2) pdf_quality =
    combineResults ((fs1 ++ fs2).map (fun f => pdf_to_images f.1 f.2 pdf_quality))

/-- Claim C3: if any page of a document fails to rasterize, that entire
document's conversion aborts with zero payloads (partially built groups
are discarded), while the other documents of the batch are processed
independently to completion. -/
theorem pdf_failure_isolation (pdf_quality : Quality)
    (fs1 fs2 : List (String × List (Option PILImage)))
    (name : String) (pages : List (Option PILImage))
    (hfail : ∃ i, i < pages.length ∧ pages.getD i none = none) :
    FailureIsolationSpec pdf_quality fs1 fs2 name pages := by
  have h0 := pdf_to_images_fail_run name pages pdf_quality hfail
  have h1 : pdf_to_images name pages pdf_quality = ([], []) := by
    unfold pdf_to_images
    rw [h0]
  refine ⟨h1, ?_, processBatch_eq_combine pdf_quality (fs1 ++ fs2)⟩
  have hmid : processBatch ((name, pages) :: fs2) pdf_quality =
      processBatch fs2 pdf_quality := by
    conv_lhs => unfold processBatch
    rw [List.foldl_cons, processBatch_acc]
    simp [h1]
  rw [processBatch_append, hmid, ← processBatch_append]

/-- Witness for C3: a batch of one sound document and one document whose
single page fails. -/
theorem pdf_failure_isolation_witness :
    FailureIsolationSpec Quality.High [("good.pdf", [some imgRGB])] []
      "bad.pdf" [none] :=
  pdf_failure_isolation Quality.High [("good.pdf", [some imgRGB])] []
    "bad.pdf" [none] ⟨0, by simp, rfl⟩

/-- The entry of the main pipeline's group list, `getElem?` form. -/
theorem pdfGroups_getElem (total p k : Nat)
    (hk : k < num_combined_images total p) :
    (pdfGroups total p)[k]? = some (k * p, min (k * p + p) total) := by
  unfold pdfGroups
  rw [List.getElem?_map, List.getElem?_range hk]
  rfl

/-- The caption of a group, written as the claim writes it. -/
theorem groupCaption_format (name : String) (s e : Nat) :
    groupCaption name s e =
      if e = s + 1 then name ++ " - Page " ++ Nat.repr (s + 1)
      else name ++ " - Pages " ++ Nat.repr (s + 1) ++ "-" ++ Nat.repr e := by
  unfold groupCaption
  by_cases h : e = s + 1
  · rw [if_pos h, if_pos h, String.append_assoc name]
    rw [show (" - " : String) ++ ("Page " ++ Nat.repr (s + 1)) =
        " - Page " ++ Nat.repr (s + 1) by
      rw [← String.append_assoc]
      congr 1]
    rw [← String.append_assoc]
  · rw [if_neg h, if_neg h]
    simp only [String.append_assoc]
    rw [show (" - " : String) ++ ("Pages " ++ (Nat.repr (s + 1) ++ ("-" ++ Nat.repr e))) =
        " - Pages " ++ (Nat.repr (s + 1) ++ ("-" ++ Nat.repr e)) by
      rw [← String.append_assoc]
      congr 1]

/-- Claim C6's property: on a fully rasterizing document the pipeline
emits one caption per group; the caption of 0-indexed group `k` spanning
`[k*p, min(k*p + p, total))` is `"<name> - Page <start+1>"` when the group
holds exactly one page and `"<name> - Pages <start+1>-<end>"` (1-based
inclusive) otherwise; every group holds at least one page. -/
def CaptionSpec (name : String) (pages : List (Option PILImage))
    (pdf_quality : Quality) : Prop :=
  (pdf_to_images name pages pdf_quality).2.length =
    num_combined_images pages.length (get_pages_per_image pdf_quality) ∧
  ∀ k, k < (pdf_to_images name pages pdf_quality).2.length →
    (k * get_pages_per_image pdf_quality <
      min (k * get_pages_per_image pdf_quality + get_pages_per_image pdf_quality)
        pages.length) ∧
    (pdf_to_images name pages pdf_quality).2.getD k "" =
      if min (k * get_pages_per_image pdf_quality + get_pages_per_image pdf_quality)
          pages.length = k * get_pages_per_image pdf_quality + 1
      then name ++ " - Page " ++ Nat.repr (k * get_pages_per_image pdf_quality + 1)
      else name ++ " - Pages " ++
        Nat.repr (k * get_pages_per_image pdf_quality + 1) ++ "-" ++
        Nat.repr (min (k * get_pages_per_image pdf_quality +
          get_pages_per_image pdf_quality) pages.length)

/-- Claim C6: each emitted page group's caption is
`"<documentName> - Page <start+1>"` for a single-page group and
`"<documentName> - Pages <start+1>-<end>"` for a longer group. -/
theorem captions_spec (name : String) (pages : List (Option PILImage))
    (pdf_quality : Quality)
    (hok : ∀ i, i < pages.length → pages.getD i none ≠ none) :
    CaptionSpec name pages pdf_quality := by
  obtain ⟨imgs, hrun, hlen⟩ := pdf_to_images_ok_run name pages pdf_quality hok
  have hp : 0 < get_pages_per_image pdf_quality := get_pages_per_image_pos _
  have hsnd : (pdf_to_images name pages pdf_quality).2 =
      (pdfGroups pages.length (get_pages_per_image pdf_quality)).map
        (fun g => groupCaption name g.1 g.2) := by
    unfold pdf_to_images
    rw [hrun]
  have hL : (pdf_to_images name pages pdf_quality).2.length =
      num_combined_images pages.length (get_pages_per_image pdf_quality) := by
    rw [hsnd, List.length_map, pdfGroups_length]
  refine ⟨hL, ?_⟩
  intro k hk
  rw [hL] at hk
  constructor
  · exact lt_min (by omega)
      (mul_lt_total_of_lt_num pages.length _ k hp hk)
  · rw [hsnd, List.getD_eq_getElem?_getD, List.getElem?_map,
      pdfGroups_getElem _ _ _ hk]
    exact groupCaption_format name _ _

/-- Witness for C6: a three-page document at 2 pages per group yields
captions "doc.pdf - Pages 1-2" and "doc.pdf - Page 3". -/
theorem captions_spec_witness :
    CaptionSpec "doc.pdf" [some imgRGB, some imgRGB, some imgRGB] Quality.High :=
  captions_spec "doc.pdf" [some imgRGB, some imgRGB, some imgRGB] Quality.High
    (by
      intro i hi
      simp at hi
      interval_cases i <;> simp)

/-- Claim C7 (amended): the document handle is released exactly on the
successful path — the close flag is true iff every page rasterizes; on the
abort path the `except` branch returns without reaching `close()`. -/
theorem pdf_handle_release (name : String) (pages : List (Option PILImage))
    (pdf_quality : Quality) :
    (pdf_to_images_run name pages pdf_quality).2 = true ↔
      ∀ i, i < pages.length → pages.getD i none ≠ none := by
  constructor
  · intro hclosed i hi hnone
    have h0 := pdf_to_images_fail_run name pages pdf_quality ⟨i, hi, hnone⟩
    rw [h0] at hclosed
    simp at hclosed
  · intro hok
    obtain ⟨imgs, hrun, _⟩ := pdf_to_images_ok_run name pages pdf_quality hok
    rw [hrun]

/-- Claim C7 counterexample: a single-page document whose page fails to
rasterize takes the abort path, and the close flag is false — the handle
is not released before `pdf_to_images` returns, contradicting "released on
every exit path". -/
theorem pdf_close_skipped_on_abort :
    (pdf_to_images_run "doc.pdf" [none] Quality.High).2 = false := rfl

/-- Witness for C7's amended statement: a sound single-page document
closes its handle. -/
theorem pdf_handle_release_witness :
    (pdf_to_images_run "doc.pdf" [some imgRGB] Quality.High).2 = true :=
  (pdf_handle_release "doc.pdf" [some imgRGB] Quality.High).mpr
    (by
      intro i hi
      simp at hi
      subst hi
      simp)
